import Mathlib

/-!
Shallow embedding of `src/AGOL_Backup_Feature_Services_CreateReplicaMethod_noattach.py`
(repository AGOLCreateReplicaBackup): the incremental-backup decision engine and its
durable state ledger.

Modelling notes, keyed to the source:

* A pandas data-frame row of the success-log ledger (`success_log_df`) is a `Record`:
  every non-key cell is an `Option`, with `none` standing for a missing column / NaN.
  `df.update(other)` (line 117) overwrites a cell exactly when the incoming cell is
  non-NA and its column exists in the target frame; this is `nanUpdate` applied
  field-wise (`rowUpdate`).  The rows appended by `update_df` (lines 119-121) are the
  incoming rows themselves; pandas sorts the appended keys while this embedding keeps
  the incoming order — no claim below depends on row order.
* Machine timestamps (millisecond epoch values such as `ts_today`, line 79, and
  `lastEditDate`) are `Nat`.
* The external catalog (arcgis `Item`) is the structure `Item`; `item._has_layers()`
  is the field `has_layers`; the per-layer / per-table
  `properties.editingInfo.lastEditDate` values are the lists `layers` and `tables`.
* The filesystem touched by the export / move / verify phases is the `FS` state over
  the algebraic path type `FPath`: the per-item per-run working directory
  `<download_location>\backups\<title>\<date_today>` (line 280), the single artifact
  the export writes inside it, and the canonical archive
  `<download_location>\backups\<title>\<title>_<date_today>.zip` (line 354).  Path
  strings built from distinct titles are distinct, which the constructors make
  intrinsic.  External effects are oracles in `Config`: `exportOk` (whether
  `data.replicas.create`, lines 286-301, succeeds), `zipWellFormed` (whether the
  archive produced for a title opens as a zip, line 359).  `os.rmdir` of the empty
  working directory in the failure handler (line 304) is modelled as removing it.
* `update_logs` (lines 388-396) calls `update_df(success_log_df, run_df[...])` and
  discards the returned frame: only the in-place `df.update` part reaches the
  persisted ledger, which is `update_in_place` below.
-/

namespace AGOL

/-- A catalog item as the script consumes it: identifier, display names, service url,
item-level modified timestamp, the `_has_layers()` flag, and the
`editingInfo.lastEditDate` of each layer and each table. -/
structure Item where
  id : String
  name : String
  title : String
  url : String
  modified : Nat
  has_layers : Bool
  layers : List Nat
  tables : List Nat
deriving DecidableEq, Repr

/-- Row of `items_df` (the dictionary returned by `item_info`, lines 194-200). -/
structure ItemMeta where
  item_id : String
  item_name : String
  item_title : String
  url : String
  updated_ts : Nat
  last_edit_date : String
  last_edit_date_ts : Nat
deriving DecidableEq, Repr

/-- Row of the durable ledger `success_log_df`.  `none` models a NaN cell or a column
absent from the frame a row came from. -/
structure Record where
  item_id : String
  item_name : Option String
  item_title : Option String
  url : Option String
  updated_ts : Option Nat
  last_edit_date : Option String
  last_edit_date_ts : Option Nat
  backup_date : Option String
  backup_ts : Option Nat
  zip_path : Option String
deriving DecidableEq, Repr

/-- Row of the per-run log (`log_row`, lines 370-374). -/
structure RunRow where
  item_id : String
  item_name : String
  item_title : String
  zip_path : String
  status : String
deriving DecidableEq, Repr

/-- Paths the run touches, algebraically: the per-item per-run working directory, the
single artifact the export drops inside it, and the canonical archive one level up.
All three are functions of the item title (and of the run-wide `download_location`
and `date_today`, fixed within a run). -/
inductive FPath where
  | workdir : String → FPath
  | artifact : String → FPath
  | canonicalZip : String → FPath
deriving DecidableEq, Repr

/-- Filesystem-and-log state threaded through the export and move phases: files and
directories present, plus the records appended to the run-scoped error log (each
tagged with the run timestamp `date_today`, line 306). -/
structure FS where
  files : List FPath
  dirs : List FPath
  errors : List String
deriving DecidableEq, Repr

/-- One run's inputs: the configuration parameters (lines 23-41), the run timestamps
(lines 75-79), the durable ledger as found on disk (`none` = absent or unreadable,
lines 207-216), and the external collaborators as oracles: the catalog search
(line 159), the export capability, and whether a produced archive opens as a zip. -/
structure Config where
  full_backup : Bool
  csvIds : List String
  search : String → List Item
  priorLedger : Option (List Record)
  download_location : String
  date_today : String
  ts_today : Nat
  exportOk : Item → Bool
  zipWellFormed : String → Bool

/-- Text rendering of a millisecond timestamp (`stamp_to_text`, line 91).  The
`strftime` formatting is external; it is modelled as an abstract injective
rendering. -/
def stamp_to_text (ts : Nat) : String :=
  toString ts

/-- Cell-level semantics of `df.update` (line 117): an incoming non-NA value
overwrites, an incoming NaN / absent column leaves the current value. -/
def nanUpdate {α : Type} (incoming current : Option α) : Option α :=
  match incoming with
  | some v => some v
  | none => current

/-- Row-level semantics of `df.update` for two rows sharing the key `item_id`. -/
def rowUpdate (inc r : Record) : Record :=
  { item_id := r.item_id
    item_name := nanUpdate inc.item_name r.item_name
    item_title := nanUpdate inc.item_title r.item_title
    url := nanUpdate inc.url r.url
    updated_ts := nanUpdate inc.updated_ts r.updated_ts
    last_edit_date := nanUpdate inc.last_edit_date r.last_edit_date
    last_edit_date_ts := nanUpdate inc.last_edit_date_ts r.last_edit_date_ts
    backup_date := nanUpdate inc.backup_date r.backup_date
    backup_ts := nanUpdate inc.backup_ts r.backup_ts
    zip_path := nanUpdate inc.zip_path r.zip_path }

/-- Look a key up in a keyed frame (the `item_id` index set by `set_indexes`,
line 114). -/
def findKey (df : List Record) (k : String) : Option Record :=
  df.find? (fun r => r.item_id == k)

/-- Whether a key is present in a keyed frame. -/
def hasKey (df : List Record) (k : String) : Bool :=
  (findKey df k).isSome

/-- Effect of the in-place `df.update(updating_df)` (line 117) on one row of `df`:
overwritten cell-wise when its key occurs in `updating_df`, untouched otherwise. -/
def inPlaceRow (updating : List Record) (r : Record) : Record :=
  match findKey updating r.item_id with
  | some inc => rowUpdate inc r
  | none => r

/-- The in-place `df.update(updating_df)` part of `update_df` (line 117): every row
of `df` whose key occurs in `updating_df` is overwritten cell-wise by the matching
incoming row; other rows are untouched.  No row is added or removed. -/
def update_in_place (df updating : List Record) : List Record :=
  df.map (inPlaceRow updating)

/-- `update_df` (lines 112-125): update existing rows in place, then append the
incoming rows whose keys are absent from `df`. -/
def update_df (df updating : List Record) : List Record :=
  update_in_place df updating ++ updating.filter (fun inc => !(hasKey df inc.item_id))

/-- The accumulator step of the two `lastEditDate` loops in `item_info`
(lines 184-190): keep the larger value (ties replace, same result). -/
def last_edit_fold (acc d : Nat) : Nat :=
  if d ≥ acc then d else acc

/-- `item_info` (lines 170-200): item metadata plus the derived last edit timestamp,
scanned over the layers and then the tables, starting from `0`, and guarded by
`item._has_layers()`. -/
def item_info (item : Item) : ItemMeta :=
  let led : Nat :=
    if item.has_layers then
      item.tables.foldl last_edit_fold (item.layers.foldl last_edit_fold 0)
    else 0
  { item_id := item.id
    item_name := item.name
    item_title := item.title
    url := item.url
    updated_ts := item.modified
    last_edit_date := stamp_to_text led
    last_edit_date_ts := led }

/-- An `items_df` row as `update_df` sees it (lines 225, 231): the metadata columns
are populated, the backup columns do not exist in that frame (hence `none`). -/
def metaToRecord (m : ItemMeta) : Record :=
  { item_id := m.item_id
    item_name := some m.item_name
    item_title := some m.item_title
    url := some m.url
    updated_ts := some m.updated_ts
    last_edit_date := some m.last_edit_date
    last_edit_date_ts := some m.last_edit_date_ts
    backup_date := none
    backup_ts := none
    zip_path := none }

/-- The fresh-ledger branch (lines 232-237): build the ledger from `items_df` and
insert the never-backed-up sentinel columns. -/
def initLedger (metas : List ItemMeta) : List Record :=
  metas.map (fun m =>
    { metaToRecord m with
        backup_date := some "Not yet backed up"
        backup_ts := some 0
        zip_path := some "Not yet backed up" })

/-- The item list (lines 155-162): one catalog search per CSV identifier, flattened
with `chain`. -/
def item_list (c : Config) : List Item :=
  (c.csvIds.map c.search).flatten

/-- Whether the durable ledger opened (line 209). -/
def success_log_exists (c : Config) : Bool :=
  c.priorLedger.isSome

/-- The run's effective full-backup flag: the configured `full_backup` (line 28), or
forced on by a failed ledger load (line 212). -/
def full_backup_run (c : Config) : Bool :=
  c.full_backup || c.priorLedger.isNone

/-- `items_df` (lines 219-225): fresh metadata for every item found. -/
def items_df (c : Config) : List ItemMeta :=
  (item_list c).map item_info

/-- The merged ledger as of line 240: the prior ledger merged with `items_df`
(line 231), or the freshly built sentinel ledger (lines 234-237). -/
def success_log_df (c : Config) : List Record :=
  match c.priorLedger with
  | some prior => update_df prior ((items_df c).map metaToRecord)
  | none => initLedger (items_df c)

/-- The staleness test of line 244-245 on one ledger row:
`backup_ts < last_edit_date_ts` (false when either side is NaN, as in pandas) or
`backup_ts != backup_ts` (true exactly when `backup_ts` is NaN). -/
def staleQuery (r : Record) : Bool :=
  (match r.backup_ts, r.last_edit_date_ts with
   | some b, some e => decide (b < e)
   | _, _ => false)
  || r.backup_ts.isNone

/-- `stale_list` (line 246): the identifiers of the stale ledger rows. -/
def stale_list (c : Config) : List String :=
  ((success_log_df c).filter staleQuery).map (fun r => r.item_id)

/-- The processing guard used by `create_replica` (line 256), `move_items`
(line 322) and `create_run_log` (line 376):
`(full_backup == True) or (item.id in stale_list)`. -/
def processed (c : Config) (item : Item) : Bool :=
  full_backup_run c || (stale_list c).contains item.id

/-- The canonical archive path string (`zip_path`, lines 353-354), the format
string `{0}\backups\{1}\{1}_{2}.zip` applied to the download location, the item
title and `date_today`. -/
def zip_path (c : Config) (item : Item) : String :=
  c.download_location ++ "\\backups\\" ++ item.title ++ "\\" ++ item.title
    ++ "_" ++ c.date_today ++ ".zip"

/-- Filesystem effect of one `create_replica` call (lines 252-311) for one item:
skip unless selected; create the working directory if absent
(`check_create_folder`, line 282); on export success the capability drops its one
artifact there; on export failure remove the directory again and append a
timestamped record to the run-scoped error log (lines 302-311). -/
def create_replica_fs (c : Config) (fs : FS) (item : Item) : FS :=
  if processed c item then
    let dirs1 :=
      if fs.dirs.contains (FPath.workdir item.title) then fs.dirs
      else fs.dirs ++ [FPath.workdir item.title]
    if c.exportOk item then
      { files := fs.files ++ [FPath.artifact item.title]
        dirs := dirs1
        errors := fs.errors }
    else
      { files := fs.files
        dirs := dirs1.erase (FPath.workdir item.title)
        errors := fs.errors ++ [c.date_today] }
  else fs

/-- Filesystem effect of one `move_items` iteration (lines 319-345) for one item:
when the item was selected and its working directory holds the artifact, rename it
to the canonical name, move it one level up, and remove the working directory; in
every other case the wrapping `try ... except: pass` leaves the state unchanged
(`listdir` on a removed directory, or an empty directory, raises). -/
def move_items_fs (c : Config) (fs : FS) (item : Item) : FS :=
  if processed c item && fs.files.contains (FPath.artifact item.title) then
    { files := (fs.files.erase (FPath.artifact item.title)) ++ [FPath.canonicalZip item.title]
      dirs := fs.dirs.erase (FPath.workdir item.title)
      errors := fs.errors }
  else fs

/-- State after the export loop (lines 313-314), starting from an empty run-scoped
state (working paths are unique to this run's timestamp). -/
def exportPhase (c : Config) : FS :=
  (item_list c).foldl (create_replica_fs c) ⟨[], [], []⟩

/-- State after the move loop (lines 319-347). -/
def finalFS (c : Config) : FS :=
  (item_list c).foldl (move_items_fs c) (exportPhase c)

/-- `check_zip` (lines 356-365): `success` exactly when the archive is present at
the canonical path and opens as a zip, otherwise `fail`. -/
def check_zip (c : Config) (fs : FS) (item : Item) : String :=
  if fs.files.contains (FPath.canonicalZip item.title) && c.zipWellFormed item.title
  then "success" else "fail"

/-- One run-log row (`log_row`, lines 370-377): selected items get their
`check_zip` verdict, the rest are marked still fresh. -/
def run_row (c : Config) (fs : FS) (item : Item) : RunRow :=
  { item_id := item.id
    item_name := item.name
    item_title := item.title
    zip_path := zip_path c item
    status := if processed c item then check_zip c fs item else "Backup still fresh" }

/-- `create_run_log` (lines 367-379): one row per item of `item_list`. -/
def create_run_log (c : Config) (fs : FS) : List RunRow :=
  (item_list c).map (run_row c fs)

/-- A successful run-log row as the ledger update sees it in `update_logs`
(lines 392-394): the columns shared with `success_log_df` are `item_name`,
`item_title`, `zip_path` and the two inserted backup columns, set to the run's
start timestamp; the frame has no url / updated / last-edit columns, and its
`status` column does not exist in the ledger frame, so `df.update` ignores it. -/
def runRowToRecord (c : Config) (row : RunRow) : Record :=
  { item_id := row.item_id
    item_name := some row.item_name
    item_title := some row.item_title
    url := none
    updated_ts := none
    last_edit_date := none
    last_edit_date_ts := none
    backup_date := some (stamp_to_text c.ts_today)
    backup_ts := some c.ts_today
    zip_path := some row.zip_path }

/-- The rows `update_logs` merges back (line 394): the run-log rows whose status is
`success`. -/
def success_rows (c : Config) : List Record :=
  ((create_run_log c (finalFS c)).filter (fun row => row.status == "success")).map
    (runRowToRecord c)

/-- The ledger as persisted by `update_logs` (lines 394-395).  The call discards
`update_df`'s return value, so only the in-place `df.update` part reaches the
ledger that `export_df` writes out. -/
def update_logs_ledger (c : Config) : List Record :=
  update_in_place (success_log_df c) (success_rows c)

/-- A sequence of runs: each run reads the ledger the previous run persisted. -/
def chainRuns : List Config → List Record → List Record
  | [], led => led
  | c :: cs, led => chainRuns cs (update_logs_ledger { c with priorLedger := some led })

/-- Every `backup_ts` recorded in a ledger is at most `t`. -/
def ledgerBound (led : List Record) (t : Nat) : Prop :=
  ∀ r ∈ led, ∀ b, r.backup_ts = some b → b ≤ t

/-- The run timestamps of a sequence of runs are non-decreasing, starting at or
after `t`. -/
def tsMono : Nat → List Config → Prop
  | _, [] => True
  | t, c :: cs => t ≤ c.ts_today ∧ tsMono c.ts_today cs

/-! ### Concrete fixtures used to instantiate the theorems -/

/-- A feature-layer item whose layers and tables were last edited at 10, 20 and 15. -/
def itemA : Item :=
  { id := "A", name := "nA", title := "TA", url := "uA", modified := 5
    has_layers := true, layers := [10, 20], tables := [15] }

/-- A second feature-layer item, last edited at 30. -/
def itemB : Item :=
  { id := "B", name := "nB", title := "TB", url := "uB", modified := 6
    has_layers := true, layers := [30], tables := [] }

/-- A prior-ledger row for item A whose backup (at 100) postdates every edit. -/
def recA : Record :=
  { item_id := "A", item_name := some "nA", item_title := some "TA"
    url := some "uA", updated_ts := some 1, last_edit_date := some "d"
    last_edit_date_ts := some 10, backup_date := some "bd"
    backup_ts := some 100, zip_path := some "z" }

/-- A prior-ledger row for item A whose backup (at 15) predates the newest edit. -/
def recA2 : Record :=
  { item_id := "A", item_name := some "nA", item_title := some "TA"
    url := some "uA", updated_ts := some 1, last_edit_date := some "d"
    last_edit_date_ts := some 10, backup_date := some "bd"
    backup_ts := some 15, zip_path := some "z" }

/-- A prior-ledger row for item A backed up at 5 (stale). -/
def recW8 : Record :=
  { item_id := "A", item_name := some "nA", item_title := some "TA"
    url := some "uA", updated_ts := some 1, last_edit_date := some "d"
    last_edit_date_ts := some 10, backup_date := some "bd"
    backup_ts := some 5, zip_path := some "z" }

/-- A small concrete run configuration: two items, a prior ledger holding only a
fresh entry for A, exports and archives all fine. -/
def cfgBase : Config :=
  { full_backup := false
    csvIds := ["A", "B"]
    search := fun s => if s = "A" then [itemA] else if s = "B" then [itemB] else []
    priorLedger := some [recA]
    download_location := "D:"
    date_today := "20260101_000000"
    ts_today := 1000
    exportOk := fun _ => true
    zipWellFormed := fun _ => true }

/-- The same run with every export failing. -/
def cfgFail : Config :=
  { cfgBase with exportOk := fun _ => false }

/-- A run over a prior ledger whose entry for A is stale, with the export failing. -/
def cfgC2 : Config :=
  { cfgBase with priorLedger := some [recA2], exportOk := fun _ => false }

/-- The same run with the durable ledger absent or unreadable. -/
def cfgNoPrior : Config :=
  { cfgBase with priorLedger := none }

/-- The same run with an extra configured identifier the catalog does not match. -/
def cfgC10 : Config :=
  { cfgBase with csvIds := ["A", "B", "C"] }

/-- A run reading a prior ledger whose entry for A is stale (backed up at 5). -/
def cfgW8 : Config :=
  { cfgBase with priorLedger := some [recW8] }

/-- The ledger row for A after `cfgW8`'s run: metadata refreshed from the catalog,
backup fields rewritten to the run timestamp and the canonical archive path. -/
def rnC8 : Record :=
  { item_id := "A", item_name := some "nA", item_title := some "TA"
    url := some "uA", updated_ts := some 5, last_edit_date := some "20"
    last_edit_date_ts := some 20, backup_date := some "1000"
    backup_ts := some 1000
    zip_path := some "D:\\backups\\TA\\TA_20260101_000000.zip" }

/-! ### Helper lemmas on keyed frames -/

theorem rowUpdate_item_id (inc r : Record) : (rowUpdate inc r).item_id = r.item_id :=
  rfl

theorem findKey_some_id {df : List Record} {k : String} {r : Record}
    (h : findKey df k = some r) : r.item_id = k := by
  have h2 := List.find?_some h
  simpa using h2

theorem findKey_mem {df : List Record} {k : String} {r : Record}
    (h : findKey df k = some r) : r ∈ df :=
  List.mem_of_find?_eq_some h

theorem findKey_eq_none_iff {df : List Record} {k : String} :
    findKey df k = none ↔ ∀ r ∈ df, r.item_id ≠ k := by
  simp [findKey, List.find?_eq_none]

theorem hasKey_iff {df : List Record} {k : String} :
    hasKey df k = true ↔ ∃ r ∈ df, r.item_id = k := by
  induction df with
  | nil => simp [hasKey, findKey]
  | cons r rest ih =>
    by_cases h : r.item_id = k
    · simp [hasKey, findKey, List.find?_cons, h]
    · have hb : (r.item_id == k) = false := by simp [h]
      simp only [hasKey, findKey, List.find?_cons, hb] at ih ⊢
      simp only [List.mem_cons]
      constructor
      · intro hs
        rcases ih.mp hs with ⟨x, hx, hid⟩
        exact ⟨x, Or.inr hx, hid⟩
      · rintro ⟨x, hx | hx, hid⟩
        · exact absurd (hx ▸ hid) h
        · exact ih.mpr ⟨x, hx, hid⟩

theorem findKey_map_keyed {f : Record → Record} (hf : ∀ r, (f r).item_id = r.item_id)
    (df : List Record) (k : String) :
    findKey (df.map f) k = (findKey df k).map f := by
  induction df with
  | nil => rfl
  | cons r rest ih =>
    by_cases h : r.item_id = k
    · have hb : ((f r).item_id == k) = true := by simp [hf, h]
      have hb2 : (r.item_id == k) = true := by simp [h]
      simp [findKey, List.find?_cons, hb, hb2]
    · have hb : ((f r).item_id == k) = false := by simp [hf, h]
      have hb2 : (r.item_id == k) = false := by simp [h]
      simp only [findKey, List.map_cons, List.find?_cons, hb, hb2] at ih ⊢
      exact ih

theorem inPlaceRow_item_id (upd : List Record) (r : Record) :
    (inPlaceRow upd r).item_id = r.item_id := by
  unfold inPlaceRow
  cases h : findKey upd r.item_id <;> simp [rowUpdate_item_id]

theorem inPlaceRow_key (upd : List Record) (r : Record) :
    inPlaceRow upd r =
      match findKey upd r.item_id with
      | some inc => rowUpdate inc r
      | none => r :=
  rfl

theorem findKey_update_in_place (df upd : List Record) (k : String) :
    findKey (update_in_place df upd) k =
      (findKey df k).map (inPlaceRow upd) := by
  rw [update_in_place, findKey_map_keyed (inPlaceRow_item_id upd)]

theorem findKey_append (l1 l2 : List Record) (k : String) :
    findKey (l1 ++ l2) k = (findKey l1 k).or (findKey l2 k) := by
  simp [findKey, List.find?_append]

theorem findKey_update_df (df upd : List Record) (k : String) :
    findKey (update_df df upd) k =
      match findKey df k with
      | some r => some (inPlaceRow upd r)
      | none => findKey (upd.filter (fun inc => !(hasKey df inc.item_id))) k := by
  rw [update_df, findKey_append, findKey_update_in_place]
  cases h : findKey df k <;> simp

theorem staleQuery_iff (r : Record) :
    staleQuery r = true ↔
      r.backup_ts = none ∨
        ∃ b e, r.backup_ts = some b ∧ r.last_edit_date_ts = some e ∧ b < e := by
  unfold staleQuery
  cases hb : r.backup_ts with
  | none => simp
  | some b =>
    cases he : r.last_edit_date_ts with
    | none => simp
    | some e => simp

theorem mem_stale_list (c : Config) (k : String) :
    k ∈ stale_list c ↔ ∃ r ∈ success_log_df c, r.item_id = k ∧ staleQuery r = true := by
  constructor
  · intro h
    rcases List.mem_map.mp h with ⟨r, hr, hk⟩
    rcases List.mem_filter.mp hr with ⟨hmem, hq⟩
    exact ⟨r, hmem, hk, hq⟩
  · rintro ⟨r, hmem, hk, hq⟩
    exact List.mem_map.mpr ⟨r, List.mem_filter.mpr ⟨hmem, hq⟩, hk⟩

theorem processed_iff (c : Config) (item : Item) :
    processed c item = true ↔
      full_backup_run c = true ∨ item.id ∈ stale_list c := by
  simp [processed]

/-! ### Lemmas on the last-edit fold -/

theorem last_edit_fold_eq_max (acc d : Nat) : last_edit_fold acc d = max acc d := by
  unfold last_edit_fold
  split <;> omega

theorem foldl_last_edit_init_le (l : List Nat) (init : Nat) :
    init ≤ l.foldl last_edit_fold init := by
  induction l generalizing init with
  | nil => simp
  | cons a t ih =>
    rw [List.foldl_cons]
    calc init ≤ last_edit_fold init a := by rw [last_edit_fold_eq_max]; omega
      _ ≤ t.foldl last_edit_fold (last_edit_fold init a) := ih _

theorem foldl_last_edit_mem_le (l : List Nat) :
    ∀ init d : Nat, d ∈ l → d ≤ l.foldl last_edit_fold init := by
  induction l with
  | nil =>
    intro init d hd
    cases hd
  | cons a t ih =>
    intro init d hd
    rw [List.foldl_cons]
    rcases List.mem_cons.mp hd with rfl | hd'
    · calc d ≤ last_edit_fold init d := by rw [last_edit_fold_eq_max]; omega
        _ ≤ t.foldl last_edit_fold (last_edit_fold init d) := foldl_last_edit_init_le _ _
    · exact ih _ _ hd'

theorem foldl_last_edit_eq_init_or_mem (l : List Nat) :
    ∀ init : Nat, l.foldl last_edit_fold init = init ∨ l.foldl last_edit_fold init ∈ l := by
  induction l with
  | nil =>
    intro init
    exact Or.inl rfl
  | cons a t ih =>
    intro init
    rw [List.foldl_cons]
    rcases ih (last_edit_fold init a) with h | h
    · rw [h, last_edit_fold_eq_max]
      rcases max_choice init a with hm | hm
      · exact Or.inl hm
      · exact Or.inr (by rw [hm]; exact List.mem_cons_self a t)
    · exact Or.inr (List.mem_cons_of_mem a h)

/-! ### Lemmas on the export and move phases -/

theorem create_replica_fs_files (c : Config) (fs : FS) (a : Item) :
    (create_replica_fs c fs a).files =
      if processed c a && c.exportOk a then fs.files ++ [FPath.artifact a.title]
      else fs.files := by
  unfold create_replica_fs
  by_cases hp : processed c a = true <;> by_cases ho : c.exportOk a = true <;>
    simp [hp, ho]

theorem create_replica_fs_errors (c : Config) (fs : FS) (a : Item) :
    (create_replica_fs c fs a).errors =
      if processed c a && !(c.exportOk a) then fs.errors ++ [c.date_today]
      else fs.errors := by
  unfold create_replica_fs
  by_cases hp : processed c a = true <;> by_cases ho : c.exportOk a = true <;>
    simp [hp, ho]

theorem export_files_mem (c : Config) (l : List Item) (fs : FS) (p : FPath) :
    p ∈ (l.foldl (create_replica_fs c) fs).files ↔
      p ∈ fs.files ∨
        ∃ x ∈ l, processed c x = true ∧ c.exportOk x = true ∧
          p = FPath.artifact x.title := by
  induction l generalizing fs with
  | nil => simp
  | cons a t ih =>
    rw [List.foldl_cons, ih, create_replica_fs_files]
    by_cases hp : processed c a = true <;> by_cases ho : c.exportOk a = true <;>
      simp [hp, ho, List.mem_append] <;> tauto

theorem export_errors_mem (c : Config) (l : List Item) (fs : FS) (e : String) :
    e ∈ (l.foldl (create_replica_fs c) fs).errors ↔
      e ∈ fs.errors ∨
        (e = c.date_today ∧ ∃ x ∈ l, processed c x = true ∧ c.exportOk x = false) := by
  induction l generalizing fs with
  | nil => simp
  | cons a t ih =>
    rw [List.foldl_cons, ih, create_replica_fs_errors]
    by_cases hp : processed c a = true <;> by_cases ho : c.exportOk a = true <;>
      simp [hp, ho, List.mem_append] <;> tauto

theorem create_replica_fs_dirs_other (c : Config) (fs : FS) (a : Item) (t : String)
    (h : a.title ≠ t) :
    (FPath.workdir t ∈ (create_replica_fs c fs a).dirs ↔ FPath.workdir t ∈ fs.dirs) := by
  have hne : FPath.workdir t ≠ FPath.workdir a.title := by
    intro he
    exact h (FPath.workdir.inj he).symm
  unfold create_replica_fs
  by_cases hp : processed c a = true <;> by_cases ho : c.exportOk a = true <;>
    by_cases hc : FPath.workdir a.title ∈ fs.dirs <;>
    simp [hp, ho, hc, List.mem_append, hne, List.mem_erase_of_ne hne]

theorem export_dirs_frame (c : Config) (l : List Item) (fs : FS) (t : String)
    (h : ∀ x ∈ l, x.title ≠ t) :
    (FPath.workdir t ∈ (l.foldl (create_replica_fs c) fs).dirs ↔
      FPath.workdir t ∈ fs.dirs) := by
  induction l generalizing fs with
  | nil => exact Iff.rfl
  | cons a t2 ih =>
    rw [List.foldl_cons]
    rw [ih _ (fun x hx => h x (List.mem_cons_of_mem a hx))]
    exact create_replica_fs_dirs_other c fs a t (h a (List.mem_cons_self a t2))

theorem create_replica_fs_dirs_fail (c : Config) (fs : FS) (a : Item)
    (hp : processed c a = true) (hf : c.exportOk a = false)
    (h0 : FPath.workdir a.title ∉ fs.dirs) :
    (create_replica_fs c fs a).dirs = fs.dirs := by
  have hc : fs.dirs.contains (FPath.workdir a.title) = false := by
    rw [Bool.eq_false_iff]
    intro hcon
    exact h0 (by simpa using hcon)
  simp only [create_replica_fs, hp, hf, hc, if_true, Bool.false_eq_true, if_false]
  rw [List.erase_append_right _ h0]
  simp

theorem export_dirs_removed (c : Config) (l : List Item) (fs : FS) (x : Item)
    (hx : x ∈ l) (hnd : (l.map (fun y => y.title)).Nodup)
    (hp : processed c x = true) (hf : c.exportOk x = false)
    (h0 : FPath.workdir x.title ∉ fs.dirs) :
    FPath.workdir x.title ∉ (l.foldl (create_replica_fs c) fs).dirs := by
  rcases List.append_of_mem hx with ⟨s, t2, rfl⟩
  have hnd' := hnd
  rw [List.map_append, List.map_cons] at hnd'
  rcases List.nodup_append.mp hnd' with ⟨ndA, ndB, hdisj⟩
  have hxB : x.title ∉ t2.map (fun y => y.title) := (List.nodup_cons.mp ndB).1
  have hs : ∀ y ∈ s, y.title ≠ x.title := by
    intro y hy he
    have hmem : y.title ∈ s.map (fun y => y.title) := List.mem_map_of_mem _ hy
    exact hdisj hmem (by rw [he]; exact List.mem_cons_self _ _)
  have ht : ∀ y ∈ t2, y.title ≠ x.title := by
    intro y hy he
    exact hxB (he ▸ List.mem_map_of_mem _ hy)
  rw [List.foldl_append, List.foldl_cons]
  have h1 : FPath.workdir x.title ∉ (s.foldl (create_replica_fs c) fs).dirs := by
    intro hmem
    exact h0 ((export_dirs_frame c s fs _ hs).mp hmem)
  have hstep : (create_replica_fs c (s.foldl (create_replica_fs c) fs) x).dirs =
      (s.foldl (create_replica_fs c) fs).dirs :=
    create_replica_fs_dirs_fail c _ x hp hf h1
  intro hmem
  rw [export_dirs_frame c t2 _ _ ht, hstep] at hmem
  exact h1 hmem

theorem move_files_none (c : Config) (l : List Item) (fs : FS) (t : String)
    (h1 : FPath.canonicalZip t ∉ fs.files) (h2 : FPath.artifact t ∉ fs.files) :
    FPath.canonicalZip t ∉ (l.foldl (move_items_fs c) fs).files ∧
      FPath.artifact t ∉ (l.foldl (move_items_fs c) fs).files := by
  induction l generalizing fs with
  | nil => exact ⟨h1, h2⟩
  | cons a t2 ih =>
    rw [List.foldl_cons]
    by_cases hcond : (processed c a && fs.files.contains (FPath.artifact a.title)) = true
    · have hart : FPath.artifact a.title ∈ fs.files := by
        have := (Bool.and_eq_true _ _).mp hcond
        simpa using this.2
      have hne : a.title ≠ t := by
        intro he
        exact h2 (he ▸ hart)
      apply ih
      · unfold move_items_fs
        rw [if_pos hcond]
        intro hmem
        rcases List.mem_append.mp hmem with hmem | hmem
        · exact h1 (List.mem_of_mem_erase hmem)
        · rcases List.mem_singleton.mp hmem with he
          exact hne (FPath.canonicalZip.inj he.symm)
      · unfold move_items_fs
        rw [if_pos hcond]
        intro hmem
        rcases List.mem_append.mp hmem with hmem | hmem
        · exact h2 (List.mem_of_mem_erase hmem)
        · exact (by cases List.mem_singleton.mp hmem : False)
    · apply ih
      · unfold move_items_fs
        rw [if_neg hcond]
        exact h1
      · unfold move_items_fs
        rw [if_neg hcond]
        exact h2

theorem move_dirs_mono (c : Config) (l : List Item) (fs : FS) (d : FPath)
    (h : d ∉ fs.dirs) : d ∉ (l.foldl (move_items_fs c) fs).dirs := by
  induction l generalizing fs with
  | nil => exact h
  | cons a t ih =>
    rw [List.foldl_cons]
    apply ih
    unfold move_items_fs
    by_cases hcond : (processed c a && fs.files.contains (FPath.artifact a.title)) = true
    · rw [if_pos hcond]
      intro hmem
      exact h (List.mem_of_mem_erase hmem)
    · rw [if_neg hcond]
      exact h

theorem move_errors_eq (c : Config) (l : List Item) (fs : FS) :
    (l.foldl (move_items_fs c) fs).errors = fs.errors := by
  induction l generalizing fs with
  | nil => rfl
  | cons a t ih =>
    rw [List.foldl_cons, ih]
    unfold move_items_fs
    by_cases hcond : (processed c a && fs.files.contains (FPath.artifact a.title)) = true
    · rw [if_pos hcond]
    · rw [if_neg hcond]

theorem finalFS_no_zip (c : Config) (x : Item) (hx : x ∈ item_list c)
    (hnd : ((item_list c).map (fun y => y.title)).Nodup)
    (hf : c.exportOk x = false) :
    FPath.canonicalZip x.title ∉ (finalFS c).files := by
  have hart : FPath.artifact x.title ∉ (exportPhase c).files := by
    intro hmem
    rw [exportPhase, export_files_mem] at hmem
    rcases hmem with hmem | ⟨y, hy, _, hok, he⟩
    · simp at hmem
    · have hty : y.title = x.title := (FPath.artifact.inj he).symm
      have hyx : y = x := List.inj_on_of_nodup_map hnd hy hx hty
      rw [hyx, hf] at hok
      cases hok
  have hcan : FPath.canonicalZip x.title ∉ (exportPhase c).files := by
    intro hmem
    rw [exportPhase, export_files_mem] at hmem
    rcases hmem with hmem | ⟨y, _, _, _, he⟩
    · simp at hmem
    · cases he
  exact (move_files_none c (item_list c) (exportPhase c) x.title hcan hart).1

theorem check_zip_fail_of_export_fail (c : Config) (x : Item) (hx : x ∈ item_list c)
    (hnd : ((item_list c).map (fun y => y.title)).Nodup)
    (hf : c.exportOk x = false) :
    check_zip c (finalFS c) x = "fail" := by
  have h := finalFS_no_zip c x hx hnd hf
  have hc : ((finalFS c).files.contains (FPath.canonicalZip x.title)) = false := by
    rw [Bool.eq_false_iff]
    intro hcon
    exact h (by simpa using hcon)
  unfold check_zip
  rw [hc]
  simp

/-! ### Lemmas on keyed rows produced from the item list -/

theorem findKey_rows {g : Item → Record} (hg : ∀ y, (g y).item_id = y.id)
    (l : List Item) (x : Item) (hx : x ∈ l) (hnd : (l.map (fun y => y.id)).Nodup) :
    findKey (l.map g) x.id = some (g x) := by
  induction l with
  | nil => cases hx
  | cons a t ih =>
    rcases List.mem_cons.mp hx with rfl | hx'
    · have hb : ((g x).item_id == x.id) = true := by simp [hg]
      rw [List.map_cons]
      simp [findKey, List.find?_cons, hb]
    · have hna : a.id ≠ x.id := by
        intro he
        rw [List.map_cons] at hnd
        exact (List.nodup_cons.mp hnd).1 (he ▸ List.mem_map_of_mem _ hx')
      have hb : ((g a).item_id == x.id) = false := by simp [hg, hna]
      rw [List.map_cons]
      simp only [findKey, List.find?_cons, hb]
      apply ih hx'
      rw [List.map_cons] at hnd
      exact (List.nodup_cons.mp hnd).2

theorem findKey_rows_none {g : Item → Record} (hg : ∀ y, (g y).item_id = y.id)
    (l : List Item) (k : String) (hk : ∀ y ∈ l, y.id ≠ k) :
    findKey (l.map g) k = none := by
  rw [findKey_eq_none_iff]
  intro r hr
  rcases List.mem_map.mp hr with ⟨y, hy, rfl⟩
  rw [hg]
  exact hk y hy

theorem success_rows_eq (c : Config) :
    success_rows c =
      ((item_list c).filter
          (fun x => (run_row c (finalFS c) x).status == "success")).map
        (fun x => runRowToRecord c (run_row c (finalFS c) x)) := by
  unfold success_rows create_run_log
  rw [List.filter_map, List.map_map]
  rfl

theorem findKey_success_rows (c : Config) (x : Item) (hx : x ∈ item_list c)
    (hnd : ((item_list c).map (fun y => y.id)).Nodup) :
    findKey (success_rows c) x.id =
      if (run_row c (finalFS c) x).status = "success"
      then some (runRowToRecord c (run_row c (finalFS c) x))
      else none := by
  rw [success_rows_eq]
  by_cases hs : (run_row c (finalFS c) x).status = "success"
  · rw [if_pos hs]
    apply findKey_rows (g := fun x => runRowToRecord c (run_row c (finalFS c) x))
      (fun y => rfl)
    · exact List.mem_filter.mpr ⟨hx, by simp [hs]⟩
    · exact List.Nodup.sublist (List.Sublist.map _ (List.filter_sublist _)) hnd
  · rw [if_neg hs]
    apply findKey_rows_none (fun y => rfl)
    intro y hy he
    have hyl : y ∈ item_list c := List.mem_of_mem_filter hy
    have hyx : y = x := List.inj_on_of_nodup_map hnd hyl hx he
    have := List.of_mem_filter hy
    rw [hyx] at this
    simp at this
    exact hs this

theorem mem_success_rows (c : Config) (s : Record) (hs : s ∈ success_rows c) :
    s.backup_ts = some c.ts_today ∧
      s.backup_date = some (stamp_to_text c.ts_today) ∧
      ∃ row ∈ create_run_log c (finalFS c),
        row.status = "success" ∧ s = runRowToRecord c row := by
  unfold success_rows at hs
  rcases List.mem_map.mp hs with ⟨row, hrow, rfl⟩
  have hmem := List.mem_of_mem_filter hrow
  have hst := List.of_mem_filter hrow
  simp at hst
  exact ⟨rfl, rfl, row, hmem, hst, rfl⟩

/-! ### Key coverage lemmas for the merged ledger -/

theorem hasKey_update_df (df upd : List Record) (k : String) :
    hasKey (update_df df upd) k = (hasKey df k || hasKey upd k) := by
  by_cases h1 : hasKey df k = true
  · rcases hasKey_iff.mp h1 with ⟨r, hr, hid⟩
    have : hasKey (update_df df upd) k = true := by
      rw [hasKey_iff]
      refine ⟨inPlaceRow upd r, ?_, ?_⟩
      · exact List.mem_append_left _ (List.mem_map_of_mem _ hr)
      · rw [inPlaceRow_item_id]
        exact hid
    rw [this, h1]
    rfl
  · by_cases h2 : hasKey upd k = true
    · rcases hasKey_iff.mp h2 with ⟨r, hr, hid⟩
      have hrf : r ∈ upd.filter (fun inc => !(hasKey df inc.item_id)) := by
        apply List.mem_filter.mpr
        refine ⟨hr, ?_⟩
        rw [hid]
        simp [Bool.eq_false_iff.mpr h1]
      have : hasKey (update_df df upd) k = true := by
        rw [hasKey_iff]
        exact ⟨r, List.mem_append_right _ hrf, hid⟩
      rw [this, h2]
      simp [Bool.eq_false_iff.mpr h1]
    · have h1f := Bool.eq_false_iff.mpr h1
      have h2f := Bool.eq_false_iff.mpr h2
      have : hasKey (update_df df upd) k = false := by
        rw [Bool.eq_false_iff]
        intro hcon
        rcases hasKey_iff.mp hcon with ⟨r, hr, hid⟩
        rcases List.mem_append.mp hr with hr | hr
        · rcases List.mem_map.mp hr with ⟨r0, hr0, rfl⟩
          rw [inPlaceRow_item_id] at hid
          exact h1 (hasKey_iff.mpr ⟨r0, hr0, hid⟩)
        · exact h2 (hasKey_iff.mpr ⟨r, List.mem_of_mem_filter hr, hid⟩)
      rw [this, h1f, h2f]
      rfl

theorem hasKey_items_records (c : Config) (x : Item) (hx : x ∈ item_list c) :
    hasKey ((items_df c).map metaToRecord) x.id = true := by
  rw [hasKey_iff]
  refine ⟨metaToRecord (item_info x), ?_, rfl⟩
  exact List.mem_map_of_mem _ (List.mem_map_of_mem _ hx)

theorem hasKey_success_log_df (c : Config) (x : Item) (hx : x ∈ item_list c) :
    hasKey (success_log_df c) x.id = true := by
  unfold success_log_df
  cases hpl : c.priorLedger with
  | none =>
    rw [hasKey_iff]
    refine ⟨{ metaToRecord (item_info x) with
        backup_date := some "Not yet backed up"
        backup_ts := some 0
        zip_path := some "Not yet backed up" }, ?_, rfl⟩
    unfold initLedger
    exact List.mem_map_of_mem _ (List.mem_map_of_mem _ hx)
  | some prior =>
    rw [hasKey_update_df, hasKey_items_records c x hx]
    simp

/-! ### Cell- and row-level algebra of the merge -/

theorem nanUpdate_idem {α : Type} (a b : Option α) :
    nanUpdate a (nanUpdate a b) = nanUpdate a b := by
  cases a <;> rfl

theorem nanUpdate_self {α : Type} (a : Option α) : nanUpdate a a = a := by
  cases a <;> rfl

theorem rowUpdate_rowUpdate (inc r : Record) :
    rowUpdate inc (rowUpdate inc r) = rowUpdate inc r := by
  simp [rowUpdate, nanUpdate_idem]

theorem rowUpdate_self (i : Record) : rowUpdate i i = i := by
  simp [rowUpdate, nanUpdate_self]

theorem inPlaceRow_idem (upd : List Record) (r : Record) :
    inPlaceRow upd (inPlaceRow upd r) = inPlaceRow upd r := by
  unfold inPlaceRow
  cases h : findKey upd r.item_id with
  | none => simp [h]
  | some inc => simp [rowUpdate_item_id, h, rowUpdate_rowUpdate]

theorem findKey_self (upd : List Record)
    (hnd : (upd.map (fun r => r.item_id)).Nodup) (i : Record) (hi : i ∈ upd) :
    findKey upd i.item_id = some i := by
  induction upd with
  | nil => cases hi
  | cons a t ih =>
    rcases List.mem_cons.mp hi with rfl | hi'
    · have hb : (i.item_id == i.item_id) = true := by simp
      simp [findKey, List.find?_cons, hb]
    · have hna : a.item_id ≠ i.item_id := by
        intro he
        rw [List.map_cons] at hnd
        exact (List.nodup_cons.mp hnd).1 (he ▸ List.mem_map_of_mem _ hi')
      have hb : (a.item_id == i.item_id) = false := by simp [hna]
      simp only [findKey, List.find?_cons, hb]
      apply ih ?_ hi'
      rw [List.map_cons] at hnd
      exact (List.nodup_cons.mp hnd).2

theorem inPlaceRow_fixed (upd : List Record)
    (hnd : (upd.map (fun r => r.item_id)).Nodup) (i : Record) (hi : i ∈ upd) :
    inPlaceRow upd i = i := by
  unfold inPlaceRow
  rw [findKey_self upd hnd i hi]
  simp [rowUpdate_self]

theorem inPlaceRow_backup_fields (upd : List Record) (r : Record)
    (h : ∀ i ∈ upd, i.backup_date = none ∧ i.backup_ts = none ∧ i.zip_path = none) :
    (inPlaceRow upd r).backup_date = r.backup_date ∧
      (inPlaceRow upd r).backup_ts = r.backup_ts ∧
      (inPlaceRow upd r).zip_path = r.zip_path := by
  unfold inPlaceRow
  cases hf : findKey upd r.item_id with
  | none => exact ⟨rfl, rfl, rfl⟩
  | some inc =>
    rcases h inc (findKey_mem hf) with ⟨h1, h2, h3⟩
    simp [rowUpdate, nanUpdate, h1, h2, h3]

theorem meta_records_backup_none (metas : List ItemMeta) :
    ∀ i ∈ metas.map metaToRecord,
      i.backup_date = none ∧ i.backup_ts = none ∧ i.zip_path = none := by
  intro i hi
  rcases List.mem_map.mp hi with ⟨m, _, rfl⟩
  exact ⟨rfl, rfl, rfl⟩

theorem findKey_success_log_prior (c : Config) (prior : List Record)
    (hp : c.priorLedger = some prior) (k : String) (r : Record)
    (hr : findKey prior k = some r) :
    findKey (success_log_df c) k =
      some (inPlaceRow ((items_df c).map metaToRecord) r) := by
  simp only [success_log_df, hp]
  rw [findKey_update_df, hr]

theorem hasKey_update_in_place (df upd : List Record) (k : String) :
    hasKey (update_in_place df upd) k = hasKey df k := by
  by_cases h : hasKey df k = true
  · rcases hasKey_iff.mp h with ⟨r, hr, hid⟩
    have : hasKey (update_in_place df upd) k = true := by
      rw [hasKey_iff]
      refine ⟨inPlaceRow upd r, List.mem_map_of_mem _ hr, ?_⟩
      rw [inPlaceRow_item_id]
      exact hid
    rw [this, h]
  · have hf := Bool.eq_false_iff.mpr h
    have : hasKey (update_in_place df upd) k = false := by
      rw [Bool.eq_false_iff]
      intro hcon
      rcases hasKey_iff.mp hcon with ⟨r, hr, hid⟩
      rcases List.mem_map.mp hr with ⟨r0, hr0, rfl⟩
      rw [inPlaceRow_item_id] at hid
      exact h (hasKey_iff.mpr ⟨r0, hr0, hid⟩)
    rw [this, hf]

/-! ### A run depends on its configuration only through the item list and the
remaining fields -/

theorem run_congr (c c' : Config)
    (h1 : c'.full_backup = c.full_backup) (h2 : item_list c' = item_list c)
    (h3 : c'.priorLedger = c.priorLedger)
    (h4 : c'.download_location = c.download_location)
    (h5 : c'.date_today = c.date_today) (h6 : c'.ts_today = c.ts_today)
    (h7 : c'.exportOk = c.exportOk) (h8 : c'.zipWellFormed = c.zipWellFormed) :
    update_logs_ledger c' = update_logs_ledger c ∧
      create_run_log c' (finalFS c') = create_run_log c (finalFS c) ∧
      finalFS c' = finalFS c ∧ stale_list c' = stale_list c := by
  have hfl : full_backup_run c' = full_backup_run c := by
    rw [full_backup_run, full_backup_run, h1, h3]
  have hidf : items_df c' = items_df c := by
    rw [items_df, items_df, h2]
  have hsl : success_log_df c' = success_log_df c := by
    simp only [success_log_df, h3, hidf]
  have hstl : stale_list c' = stale_list c := by
    rw [stale_list, stale_list, hsl]
  have hproc : processed c' = processed c := by
    funext x
    rw [processed, processed, hfl, hstl]
  have hstep : create_replica_fs c' = create_replica_fs c := by
    funext fs x
    simp only [create_replica_fs, hproc, h7, h5]
  have hexp : exportPhase c' = exportPhase c := by
    rw [exportPhase, exportPhase, h2, hstep]
  have hmv : move_items_fs c' = move_items_fs c := by
    funext fs x
    simp only [move_items_fs, hproc]
  have hfs : finalFS c' = finalFS c := by
    rw [finalFS, finalFS, h2, hmv, hexp]
  have hcz : check_zip c' = check_zip c := by
    funext fs x
    simp only [check_zip, h8]
  have hrr : run_row c' = run_row c := by
    funext fs x
    simp only [run_row, hproc, hcz, zip_path, h4, h5]
  have hlog : create_run_log c' (finalFS c') = create_run_log c (finalFS c) := by
    rw [create_run_log, create_run_log, h2, hfs, hrr]
  have hr2r : runRowToRecord c' = runRowToRecord c := by
    funext row
    simp only [runRowToRecord, h6]
  have hsr : success_rows c' = success_rows c := by
    rw [success_rows, success_rows, hlog, hr2r]
  have hull : update_logs_ledger c' = update_logs_ledger c := by
    rw [update_logs_ledger, update_logs_ledger, hsl, hsr]
  exact ⟨hull, hlog, hfs, hstl⟩

theorem item_list_erase (c : Config) (id0 : String) (hempty : c.search id0 = []) :
    item_list { c with csvIds := c.csvIds.erase id0 } = item_list c := by
  show ((c.csvIds.erase id0).map c.search).flatten = (c.csvIds.map c.search).flatten
  induction c.csvIds with
  | nil => rfl
  | cons a t ih =>
    by_cases h : a = id0
    · subst h
      rw [List.erase_cons_head]
      rw [List.map_cons, List.flatten_cons, hempty, List.nil_append]
    · rw [List.erase_cons_tail (by simp [h])]
      rw [List.map_cons, List.map_cons, List.flatten_cons, List.flatten_cons, ih]

/-! ### Per-run evolution of a ledger entry -/

theorem run_ledgerBound (c : Config) (prior : List Record)
    (hprior : c.priorLedger = some prior) (t : Nat)
    (hb : ledgerBound prior t) (ht : t ≤ c.ts_today) :
    ledgerBound (update_logs_ledger c) c.ts_today := by
  intro r' hr' b hb'
  unfold update_logs_ledger update_in_place at hr'
  rcases List.mem_map.mp hr' with ⟨r0, hr0, rfl⟩
  have hr0ts : ∀ v, r0.backup_ts = some v → v ≤ t := by
    intro v hv
    simp only [success_log_df, hprior] at hr0
    rcases List.mem_append.mp hr0 with hr0 | hr0
    · rcases List.mem_map.mp hr0 with ⟨r1, hr1, rfl⟩
      rcases inPlaceRow_backup_fields _ r1 (meta_records_backup_none _) with ⟨_, hts, _⟩
      rw [hts] at hv
      exact hb r1 hr1 v hv
    · have := meta_records_backup_none (items_df c) _ (List.mem_of_mem_filter hr0)
      rw [this.2.1] at hv
      cases hv
  unfold inPlaceRow at hb'
  cases hf : findKey (success_rows c) r0.item_id with
  | none =>
    rw [hf] at hb'
    exact le_trans (hr0ts b hb') ht
  | some s =>
    rw [hf] at hb'
    have hsmem := findKey_mem hf
    rcases mem_success_rows c s hsmem with ⟨hsts, _, _⟩
    simp only [rowUpdate, hsts, nanUpdate] at hb'
    have hbeq : c.ts_today = b := Option.some.inj hb'
    omega

theorem run_backup_ts_mono (c : Config) (prior : List Record)
    (hprior : c.priorLedger = some prior) (t : Nat)
    (hb : ledgerBound prior t) (ht : t ≤ c.ts_today) (k : String) (r : Record)
    (hr : findKey prior k = some r) :
    ∃ r', findKey (update_logs_ledger c) k = some r' ∧
      (r'.backup_ts = r.backup_ts ∨ r'.backup_ts = some c.ts_today) ∧
      (∀ b, r.backup_ts = some b →
        ∃ b', r'.backup_ts = some b' ∧ b ≤ b' ∧ b' ≤ c.ts_today) := by
  have hbase := findKey_success_log_prior c prior hprior k r hr
  set r0 := inPlaceRow ((items_df c).map metaToRecord) r with hr0def
  have hr0ts : r0.backup_ts = r.backup_ts :=
    (inPlaceRow_backup_fields _ r (meta_records_backup_none _)).2.1
  have hfin : findKey (update_logs_ledger c) k = some (inPlaceRow (success_rows c) r0) := by
    rw [update_logs_ledger, findKey_update_in_place, hbase]
    rfl
  refine ⟨inPlaceRow (success_rows c) r0, hfin, ?_, ?_⟩
  · unfold inPlaceRow
    cases hf : findKey (success_rows c) r0.item_id with
    | none => exact Or.inl hr0ts
    | some s =>
      rcases mem_success_rows c s (findKey_mem hf) with ⟨hsts, _, _⟩
      apply Or.inr
      simp [rowUpdate, hsts, nanUpdate]
  · intro b hbts
    have hble : b ≤ t := hb r (findKey_mem hr) b hbts
    unfold inPlaceRow
    cases hf : findKey (success_rows c) r0.item_id with
    | none =>
      refine ⟨b, ?_, le_refl b, le_trans hble ht⟩
      rw [hr0ts, hbts]
    | some s =>
      rcases mem_success_rows c s (findKey_mem hf) with ⟨hsts, _, _⟩
      refine ⟨c.ts_today, ?_, le_trans hble ht, le_refl _⟩
      simp [rowUpdate, hsts, nanUpdate]

/-! ### Claim theorems -/

/-- C1: for every item, when the run's full-backup mode (configured, or forced by a
failed ledger load) is off, the item is selected for export exactly when its merged
ledger row has `backup_ts` unset (NaN) or `backup_ts < last_edit_date_ts`; when
full-backup mode is on, every item is selected regardless of these timestamps. -/
theorem agol_C1_staleness (c : Config) (item : Item) :
    (full_backup_run c = true → processed c item = true) ∧
      (full_backup_run c = false →
        (processed c item = true ↔
          ∃ r ∈ success_log_df c, r.item_id = item.id ∧
            (r.backup_ts = none ∨
              ∃ b e, r.backup_ts = some b ∧ r.last_edit_date_ts = some e ∧ b < e))) := by
  constructor
  · intro h
    unfold processed
    rw [h]
    rfl
  · intro h
    rw [processed_iff, h]
    constructor
    · rintro (hfb | hmem)
      · cases hfb
      · rcases (mem_stale_list c item.id).mp hmem with ⟨r, hrm, hid, hq⟩
        exact ⟨r, hrm, hid, (staleQuery_iff r).mp hq⟩
    · rintro ⟨r, hrm, hid, hcond⟩
      exact Or.inr ((mem_stale_list c item.id).mpr ⟨r, hrm, hid, (staleQuery_iff r).mpr hcond⟩)

/-- Witness for C1: with full backup forced on, the fresh item A is selected; with
it off, the never-backed-up item B is selected exactly per the staleness rule. -/
theorem agol_C1_staleness_witness :
    (processed { cfgBase with full_backup := true } itemA = true) ∧
      (processed cfgBase itemB = true ↔
        ∃ r ∈ success_log_df cfgBase, r.item_id = itemB.id ∧
          (r.backup_ts = none ∨
            ∃ b e, r.backup_ts = some b ∧ r.last_edit_date_ts = some e ∧ b < e)) :=
  ⟨(agol_C1_staleness { cfgBase with full_backup := true } itemA).1 (by decide),
   (agol_C1_staleness cfgBase itemB).2 (by decide)⟩

/-- C4: when an incoming metadata record's key already exists in the base ledger,
the classification merge overwrites exactly the fields the incoming record
supplies (item metadata and edit timestamps) and leaves the base row's
backup_date, backup_ts and zip_path exactly as they were. -/
theorem agol_C4_frame (base : List Record) (metas : List ItemMeta) (r : Record)
    (m : ItemMeta) (hr : r ∈ base)
    (hf : findKey (metas.map metaToRecord) r.item_id = some (metaToRecord m)) :
    ∃ r' ∈ update_df base (metas.map metaToRecord),
      r'.item_id = r.item_id ∧
      r'.item_name = some m.item_name ∧ r'.item_title = some m.item_title ∧
      r'.url = some m.url ∧ r'.updated_ts = some m.updated_ts ∧
      r'.last_edit_date = some m.last_edit_date ∧
      r'.last_edit_date_ts = some m.last_edit_date_ts ∧
      r'.backup_date = r.backup_date ∧ r'.backup_ts = r.backup_ts ∧
      r'.zip_path = r.zip_path := by
  refine ⟨inPlaceRow (metas.map metaToRecord) r, ?_, ?_⟩
  · exact List.mem_append_left _ (List.mem_map_of_mem _ hr)
  · unfold inPlaceRow
    rw [hf]
    exact ⟨rfl, rfl, rfl, rfl, rfl, rfl, rfl, rfl, rfl, rfl⟩

/-- Witness for C4 at the concrete prior row for A and A's fresh metadata. -/
theorem agol_C4_frame_witness :
    ∃ r' ∈ update_df [recA] ([item_info itemA].map metaToRecord),
      r'.item_id = recA.item_id ∧
      r'.item_name = some (item_info itemA).item_name ∧
      r'.item_title = some (item_info itemA).item_title ∧
      r'.url = some (item_info itemA).url ∧
      r'.updated_ts = some (item_info itemA).updated_ts ∧
      r'.last_edit_date = some (item_info itemA).last_edit_date ∧
      r'.last_edit_date_ts = some (item_info itemA).last_edit_date_ts ∧
      r'.backup_date = recA.backup_date ∧ r'.backup_ts = recA.backup_ts ∧
      r'.zip_path = recA.zip_path :=
  agol_C4_frame [recA] [item_info itemA] recA (item_info itemA) (by decide) (by decide)

/-- C5 counterexample: with a prior ledger present, the row inserted for the new
key B does not carry the `backup_ts = 0` / `"Not yet backed up"` sentinels — its
backup fields are NaN (absent), refuting the claim for the prior-ledger case. -/
theorem agol_C5_counterexample :
    ¬ (∀ r' ∈ update_df [recA] ([item_info itemA, item_info itemB].map metaToRecord),
        r'.item_id = "B" →
          (r'.backup_ts = some 0 ∧ r'.backup_date = some "Not yet backed up" ∧
            r'.zip_path = some "Not yet backed up")) := by
  decide

/-- C5 amended: a new key is inserted with the "never backed up" sentinels only in
the no-prior-ledger case; when a prior ledger exists, the merge inserts the
incoming record with its backup fields unset (NaN), and such a row is still
classified stale (never backed up) by the staleness test. -/
theorem agol_C5_amended :
    (∀ (metas : List ItemMeta) (m : ItemMeta), m ∈ metas →
      ∃ r' ∈ initLedger metas, r'.item_id = m.item_id ∧
        r'.backup_ts = some 0 ∧ r'.backup_date = some "Not yet backed up" ∧
        r'.zip_path = some "Not yet backed up") ∧
      (∀ (base : List Record) (metas : List ItemMeta) (m : ItemMeta), m ∈ metas →
        hasKey base m.item_id = false →
        ∃ r' ∈ update_df base (metas.map metaToRecord), r'.item_id = m.item_id ∧
          r'.backup_ts = none ∧ r'.backup_date = none ∧ r'.zip_path = none ∧
          staleQuery r' = true) := by
  constructor
  · intro metas m hm
    exact ⟨_, List.mem_map_of_mem _ hm, rfl, rfl, rfl, rfl⟩
  · intro base metas m hm hkey
    refine ⟨metaToRecord m, ?_, rfl, rfl, rfl, rfl, rfl⟩
    apply List.mem_append_right
    apply List.mem_filter.mpr
    refine ⟨List.mem_map_of_mem _ hm, ?_⟩
    have h2 : hasKey base (metaToRecord m).item_id = false := hkey
    rw [h2]
    rfl

/-- Witness for C5 amended: sentinel row for A in the fresh-ledger branch, and a
NaN-backup stale row for the new key B in the prior-ledger merge. -/
theorem agol_C5_amended_witness :
    (∃ r' ∈ initLedger [item_info itemA], r'.item_id = (item_info itemA).item_id ∧
      r'.backup_ts = some 0 ∧ r'.backup_date = some "Not yet backed up" ∧
      r'.zip_path = some "Not yet backed up") ∧
      (∃ r' ∈ update_df [recA] ([item_info itemB].map metaToRecord),
        r'.item_id = (item_info itemB).item_id ∧
        r'.backup_ts = none ∧ r'.backup_date = none ∧ r'.zip_path = none ∧
        staleQuery r' = true) :=
  ⟨agol_C5_amended.1 [item_info itemA] (item_info itemA) (by decide),
   agol_C5_amended.2 [recA] [item_info itemB] (item_info itemB) (by decide) (by decide)⟩

/-- C7: for an item the catalog reports as having layers, the derived
`last_edit_date_ts` is an upper bound of every layer and table `lastEditDate` and
is either one of them or `0`; and it is `0` whenever the item has no layers and no
tables — i.e. it is the maximum `lastEditDate` over all layers and tables, with
`0` (epoch, "never edited") for an item with none. -/
theorem agol_C7_last_edit (item : Item) (hl : item.has_layers = true) :
    (∀ d ∈ item.layers ++ item.tables, d ≤ (item_info item).last_edit_date_ts) ∧
      ((item_info item).last_edit_date_ts = 0 ∨
        (item_info item).last_edit_date_ts ∈ item.layers ++ item.tables) ∧
      (item.layers = [] → item.tables = [] →
        (item_info item).last_edit_date_ts = 0) := by
  have hv : (item_info item).last_edit_date_ts =
      (item.layers ++ item.tables).foldl last_edit_fold 0 := by
    simp [item_info, hl, List.foldl_append]
  refine ⟨?_, ?_, ?_⟩
  · intro d hd
    rw [hv]
    exact foldl_last_edit_mem_le _ _ _ hd
  · rw [hv]
    exact foldl_last_edit_eq_init_or_mem _ _
  · intro h1 h2
    rw [hv, h1, h2]
    rfl

/-- Witness for C7 at the concrete item A (layers edited at 10 and 20, table at
15). -/
theorem agol_C7_last_edit_witness :
    (∀ d ∈ itemA.layers ++ itemA.tables, d ≤ (item_info itemA).last_edit_date_ts) ∧
      ((item_info itemA).last_edit_date_ts = 0 ∨
        (item_info itemA).last_edit_date_ts ∈ itemA.layers ++ itemA.tables) ∧
      (itemA.layers = [] → itemA.tables = [] →
        (item_info itemA).last_edit_date_ts = 0) :=
  agol_C7_last_edit itemA (by decide)

/-- C9: the ledger merge is idempotent — merging the same incoming records (with
distinct keys, as a keyed frame requires) twice yields the same ledger as merging
them once. -/
theorem agol_C9_idempotent (df upd : List Record)
    (hnd : (upd.map (fun r => r.item_id)).Nodup) :
    update_df (update_df df upd) upd = update_df df upd := by
  have hB : upd.filter (fun inc => !(hasKey (update_df df upd) inc.item_id)) = [] := by
    rw [List.filter_eq_nil_iff]
    intro i hi
    have h2 : hasKey (update_df df upd) i.item_id = true := by
      rw [hasKey_update_df]
      have h3 : hasKey upd i.item_id = true := hasKey_iff.mpr ⟨i, hi, rfl⟩
      rw [h3]
      simp
    simp [h2]
  show update_in_place (update_df df upd) upd ++
      upd.filter (fun inc => !(hasKey (update_df df upd) inc.item_id)) = update_df df upd
  rw [hB, List.append_nil]
  show ((update_in_place df upd) ++
      upd.filter (fun inc => !(hasKey df inc.item_id))).map (inPlaceRow upd) =
    update_df df upd
  rw [List.map_append]
  show _ ++ _ = update_in_place df upd ++ upd.filter (fun inc => !(hasKey df inc.item_id))
  congr 1
  · show (df.map (inPlaceRow upd)).map (inPlaceRow upd) = df.map (inPlaceRow upd)
    rw [List.map_map]
    exact List.map_congr_left (fun r _ => inPlaceRow_idem upd r)
  · calc (upd.filter (fun inc => !(hasKey df inc.item_id))).map (inPlaceRow upd)
        = (upd.filter (fun inc => !(hasKey df inc.item_id))).map id :=
          List.map_congr_left
            (fun i hi => inPlaceRow_fixed upd hnd i (List.mem_of_mem_filter hi))
      _ = upd.filter (fun inc => !(hasKey df inc.item_id)) := List.map_id _

/-- Witness for C9 on a concrete ledger and incoming metadata set. -/
theorem agol_C9_idempotent_witness :
    update_df (update_df [recA] ([item_info itemA, item_info itemB].map metaToRecord))
        ([item_info itemA, item_info itemB].map metaToRecord) =
      update_df [recA] ([item_info itemA, item_info itemB].map metaToRecord) :=
  agol_C9_idempotent [recA] ([item_info itemA, item_info itemB].map metaToRecord)
    (by decide)

/-- C6: when the durable ledger is absent or unreadable, the run proceeds: the
load signals "no prior state", full-backup mode is forced, every configured item
is selected for export, the in-memory ledger is rebuilt from the fresh metadata
with never-backed-up sentinels, and the run log still records one row per item. -/
theorem agol_C6_ledger_load (c : Config) (hnone : c.priorLedger = none) :
    full_backup_run c = true ∧
      success_log_exists c = false ∧
      (∀ item ∈ item_list c, processed c item = true) ∧
      success_log_df c = initLedger (items_df c) ∧
      (create_run_log c (finalFS c)).map (fun row => row.item_id) =
        (item_list c).map (fun y => y.id) := by
  have h1 : full_backup_run c = true := by
    rw [full_backup_run, hnone]
    simp
  refine ⟨h1, ?_, ?_, ?_, ?_⟩
  · rw [success_log_exists, hnone]
    rfl
  · intro item _
    unfold processed
    rw [h1]
    rfl
  · simp [success_log_df, hnone]
  · show ((item_list c).map (run_row c (finalFS c))).map (fun row => row.item_id) = _
    rw [List.map_map]
    rfl

/-- Witness for C6 at the concrete run with the prior ledger removed. -/
theorem agol_C6_ledger_load_witness :
    full_backup_run cfgNoPrior = true ∧
      success_log_exists cfgNoPrior = false ∧
      (∀ item ∈ item_list cfgNoPrior, processed cfgNoPrior item = true) ∧
      success_log_df cfgNoPrior = initLedger (items_df cfgNoPrior) ∧
      (create_run_log cfgNoPrior (finalFS cfgNoPrior)).map (fun row => row.item_id) =
        (item_list cfgNoPrior).map (fun y => y.id) :=
  agol_C6_ledger_load cfgNoPrior rfl

/-- The concrete catalog of the fixtures only returns an item under its own
identifier. -/
theorem cfgBase_search_sound : ∀ j : String, ∀ it ∈ cfgBase.search j, it.id = j := by
  intro j it hit
  by_cases h1 : j = "A"
  · subst h1
    simp [cfgBase] at hit
    rw [hit]
    rfl
  · by_cases h2 : j = "B"
    · subst h2
      simp [cfgBase, h1] at hit
      rw [hit]
      rfl
    · simp [cfgBase, h1, h2] at hit

/-- C10: an identifier in the input CSV for which the catalog search returns
nothing is silently excluded: no item of that identifier enters the item list, no
run-log row carries it, the whole run (filesystem state, error log, run log,
persisted ledger) is exactly the run obtained by deleting the identifier from the
CSV, and no ledger row is created for it. -/
theorem agol_C10_unmatched (c : Config) (id0 : String)
    (hempty : c.search id0 = [])
    (hsound : ∀ j : String, ∀ it ∈ c.search j, it.id = j) :
    (∀ item ∈ item_list c, item.id ≠ id0) ∧
      (∀ row ∈ create_run_log c (finalFS c), row.item_id ≠ id0) ∧
      (update_logs_ledger { c with csvIds := c.csvIds.erase id0 } =
          update_logs_ledger c ∧
        create_run_log { c with csvIds := c.csvIds.erase id0 }
            (finalFS { c with csvIds := c.csvIds.erase id0 }) =
          create_run_log c (finalFS c) ∧
        finalFS { c with csvIds := c.csvIds.erase id0 } = finalFS c) ∧
      ((match c.priorLedger with
        | some prior => hasKey prior id0 = false
        | none => True) → hasKey (update_logs_ledger c) id0 = false) := by
  have hno : ∀ item ∈ item_list c, item.id ≠ id0 := by
    intro item hmem he
    rcases List.mem_flatten.mp hmem with ⟨s, hs, hin⟩
    rcases List.mem_map.mp hs with ⟨j, _, rfl⟩
    have hj : item.id = j := hsound j item hin
    rw [he] at hj
    rw [← hj] at hin
    rw [hempty] at hin
    cases hin
  have hincKey : hasKey ((items_df c).map metaToRecord) id0 = false := by
    rw [Bool.eq_false_iff]
    intro hcon
    rcases hasKey_iff.mp hcon with ⟨r, hr, hid⟩
    rcases List.mem_map.mp hr with ⟨m, hm, rfl⟩
    rcases List.mem_map.mp hm with ⟨x, hx, rfl⟩
    exact hno x hx (by rw [← hid]; rfl)
  refine ⟨hno, ?_, ?_, ?_⟩
  · intro row hrow
    rcases List.mem_map.mp hrow with ⟨y, hy, rfl⟩
    exact hno y hy
  · have h := run_congr c { c with csvIds := c.csvIds.erase id0 } rfl
      (item_list_erase c id0 hempty) rfl rfl rfl rfl rfl rfl
    exact ⟨h.1, h.2.1, h.2.2.1⟩
  · cases hpl : c.priorLedger with
    | none =>
      intro _
      rw [update_logs_ledger, hasKey_update_in_place]
      simp only [success_log_df, hpl]
      rw [Bool.eq_false_iff]
      intro hcon
      rcases hasKey_iff.mp hcon with ⟨r, hr, hid⟩
      rcases List.mem_map.mp hr with ⟨m, hm, rfl⟩
      rcases List.mem_map.mp hm with ⟨x, hx, rfl⟩
      exact hno x hx (by rw [← hid]; rfl)
    | some prior =>
      intro hpr
      rw [update_logs_ledger, hasKey_update_in_place]
      simp only [success_log_df, hpl]
      rw [hasKey_update_df, hpr, hincKey]
      rfl

/-- Witness for C10 at the concrete run whose CSV lists the unmatched
identifier C. -/
theorem agol_C10_unmatched_witness :
    (∀ item ∈ item_list cfgC10, item.id ≠ "C") ∧
      (∀ row ∈ create_run_log cfgC10 (finalFS cfgC10), row.item_id ≠ "C") ∧
      (update_logs_ledger { cfgC10 with csvIds := cfgC10.csvIds.erase "C" } =
          update_logs_ledger cfgC10 ∧
        create_run_log { cfgC10 with csvIds := cfgC10.csvIds.erase "C" }
            (finalFS { cfgC10 with csvIds := cfgC10.csvIds.erase "C" }) =
          create_run_log cfgC10 (finalFS cfgC10) ∧
        finalFS { cfgC10 with csvIds := cfgC10.csvIds.erase "C" } = finalFS cfgC10) ∧
      ((match cfgC10.priorLedger with
        | some prior => hasKey prior "C" = false
        | none => True) → hasKey (update_logs_ledger cfgC10) "C" = false) :=
  agol_C10_unmatched cfgC10 "C" (by decide) cfgBase_search_sound

/-- C3: for an item selected in this run, the Committer rewrites that item's
ledger row (backup_date and backup_ts to the run's start timestamp, zip_path to
the canonical archive path) exactly when `check_zip` reports success, i.e. when
the archive at the canonical path opens as a zip; when verification fails, the
item's ledger row is left exactly as the merged ledger had it. -/
theorem agol_C3_commit (c : Config) (item : Item)
    (hin : item ∈ item_list c) (hp : processed c item = true)
    (hnd : ((item_list c).map (fun y => y.id)).Nodup) :
    (check_zip c (finalFS c) item = "success" →
      ∃ r', findKey (update_logs_ledger c) item.id = some r' ∧
        r'.backup_ts = some c.ts_today ∧
        r'.backup_date = some (stamp_to_text c.ts_today) ∧
        r'.zip_path = some (zip_path c item)) ∧
      (check_zip c (finalFS c) item = "fail" →
        findKey (update_logs_ledger c) item.id = findKey (success_log_df c) item.id) := by
  have hbase : ∃ r, findKey (success_log_df c) item.id = some r := by
    have h := hasKey_success_log_df c item hin
    rw [hasKey] at h
    exact Option.isSome_iff_exists.mp h
  rcases hbase with ⟨r, hr⟩
  have hrid : r.item_id = item.id := findKey_some_id hr
  have hst : (run_row c (finalFS c) item).status = check_zip c (finalFS c) item := by
    simp [run_row, hp]
  have hfk := findKey_success_rows c item hin hnd
  have hfin : findKey (update_logs_ledger c) item.id =
      (findKey (success_log_df c) item.id).map (inPlaceRow (success_rows c)) := by
    unfold update_logs_ledger
    exact findKey_update_in_place _ _ _
  constructor
  · intro hsucc
    have hfks : findKey (success_rows c) item.id =
        some (runRowToRecord c (run_row c (finalFS c) item)) := by
      rw [hfk, if_pos (by rw [hst, hsucc])]
    refine ⟨inPlaceRow (success_rows c) r, ?_, ?_, ?_, ?_⟩
    · rw [hfin, hr]
      rfl
    · unfold inPlaceRow
      rw [hrid, hfks]
      rfl
    · unfold inPlaceRow
      rw [hrid, hfks]
      rfl
    · unfold inPlaceRow
      rw [hrid, hfks]
      rfl
  · intro hfail
    have hfkn : findKey (success_rows c) item.id = none := by
      rw [hfk, if_neg]
      rw [hst, hfail]
      decide
    rw [hfin, hr, Option.map_some']
    congr 1
    unfold inPlaceRow
    rw [hrid, hfkn]

/-- Witness for C3: under the all-good run the never-backed-up item B is
committed with the run timestamp and archive path; under the all-failing run B's
ledger row is exactly the merged row. -/
theorem agol_C3_commit_witness :
    (∃ r', findKey (update_logs_ledger cfgBase) itemB.id = some r' ∧
      r'.backup_ts = some cfgBase.ts_today ∧
      r'.backup_date = some (stamp_to_text cfgBase.ts_today) ∧
      r'.zip_path = some (zip_path cfgBase itemB)) ∧
      findKey (update_logs_ledger cfgFail) itemB.id =
        findKey (success_log_df cfgFail) itemB.id :=
  ⟨(agol_C3_commit cfgBase itemB (by decide) (by decide) (by decide)).1 (by decide),
   (agol_C3_commit cfgFail itemB (by decide) (by decide) (by decide)).2 (by decide)⟩

/-- C2 counterexample: item A's export fails, yet A's persisted ledger entry is
not the entry the run started from — the classification merge (which runs and is
persisted before any export) has refreshed its edit timestamps.  The claim's
"ledger entry for item k is unchanged from before the run" is false as stated. -/
theorem agol_C2_counterexample :
    cfgC2.exportOk itemA = false ∧ processed cfgC2 itemA = true ∧
      findKey (update_logs_ledger cfgC2) "A" ≠ findKey [recA2] "A" := by
  refine ⟨rfl, by decide, by decide⟩

/-- C2 amended: when a selected item's export fails, the failure is handled
locally — the working directory is removed, a record tagged with the run
timestamp is appended to the run-scoped error log, and every configured item
still receives a run-log row — and the item's ledger entry keeps its backup
fields (backup_date, backup_ts, zip_path) exactly as they were before the run;
its metadata and edit-timestamp fields may still be refreshed by the
classification merge that precedes the exports. -/
theorem agol_C2_amended (c : Config) (prior : List Record) (item : Item)
    (hprior : c.priorLedger = some prior)
    (hin : item ∈ item_list c) (hp : processed c item = true)
    (hfail : c.exportOk item = false)
    (hndid : ((item_list c).map (fun y => y.id)).Nodup)
    (hndt : ((item_list c).map (fun y => y.title)).Nodup) :
    c.date_today ∈ (finalFS c).errors ∧
      FPath.workdir item.title ∉ (finalFS c).dirs ∧
      (create_run_log c (finalFS c)).map (fun row => row.item_id) =
        (item_list c).map (fun y => y.id) ∧
      (∀ r, findKey prior item.id = some r →
        ∃ r', findKey (update_logs_ledger c) item.id = some r' ∧
          r'.backup_date = r.backup_date ∧ r'.backup_ts = r.backup_ts ∧
          r'.zip_path = r.zip_path) := by
  refine ⟨?_, ?_, ?_, ?_⟩
  · show c.date_today ∈ ((item_list c).foldl (move_items_fs c) (exportPhase c)).errors
    rw [move_errors_eq]
    rw [exportPhase, export_errors_mem]
    exact Or.inr ⟨rfl, item, hin, hp, hfail⟩
  · show FPath.workdir item.title ∉
      ((item_list c).foldl (move_items_fs c) (exportPhase c)).dirs
    apply move_dirs_mono
    exact export_dirs_removed c (item_list c) ⟨[], [], []⟩ item hin hndt hp hfail
      (by simp)
  · show ((item_list c).map (run_row c (finalFS c))).map (fun row => row.item_id) = _
    rw [List.map_map]
    rfl
  · intro r hr
    have hst : (run_row c (finalFS c) item).status = "fail" := by
      have h1 : (run_row c (finalFS c) item).status = check_zip c (finalFS c) item := by
        simp [run_row, hp]
      rw [h1]
      exact check_zip_fail_of_export_fail c item hin hndt hfail
    have hfkn : findKey (success_rows c) item.id = none := by
      rw [findKey_success_rows c item hin hndid, if_neg]
      rw [hst]
      decide
    have hbase := findKey_success_log_prior c prior hprior item.id r hr
    have hb0 := inPlaceRow_backup_fields ((items_df c).map metaToRecord) r
      (meta_records_backup_none _)
    set r0 := inPlaceRow ((items_df c).map metaToRecord) r with hr0def
    have hr0id : r0.item_id = item.id := by
      rw [hr0def, inPlaceRow_item_id]
      exact findKey_some_id hr
    have hfin : findKey (update_logs_ledger c) item.id =
        some (inPlaceRow (success_rows c) r0) := by
      unfold update_logs_ledger
      rw [findKey_update_in_place, hbase]
      rfl
    have hfix : inPlaceRow (success_rows c) r0 = r0 := by
      unfold inPlaceRow
      rw [hr0id, hfkn]
    refine ⟨r0, by rw [hfin, hfix], hb0.1, hb0.2.1, hb0.2.2⟩

/-- Witness for C2 amended at the concrete run where A is stale and its export
fails. -/
theorem agol_C2_amended_witness :
    cfgC2.date_today ∈ (finalFS cfgC2).errors ∧
      FPath.workdir itemA.title ∉ (finalFS cfgC2).dirs ∧
      (create_run_log cfgC2 (finalFS cfgC2)).map (fun row => row.item_id) =
        (item_list cfgC2).map (fun y => y.id) ∧
      (∀ r, findKey [recA2] itemA.id = some r →
        ∃ r', findKey (update_logs_ledger cfgC2) itemA.id = some r' ∧
          r'.backup_date = r.backup_date ∧ r'.backup_ts = r.backup_ts ∧
          r'.zip_path = r.zip_path) :=
  agol_C2_amended cfgC2 [recA2] itemA rfl (by decide) (by decide) rfl
    (by decide) (by decide)

/-- C8: across any sequence of runs with non-decreasing run timestamps, an
item's `backup_ts` never decreases; and within one run it changes only when that
item's run-log row is a verified `success`, in which case it becomes the run's
start timestamp. -/
theorem agol_C8_monotonic :
    (∀ (cs : List Config) (led : List Record) (t0 : Nat) (k : String)
        (r0 rn : Record) (b0 bn : Nat),
      ledgerBound led t0 → tsMono t0 cs →
      findKey led k = some r0 → r0.backup_ts = some b0 →
      findKey (chainRuns cs led) k = some rn → rn.backup_ts = some bn →
      b0 ≤ bn) ∧
      (∀ (c : Config) (prior : List Record), c.priorLedger = some prior →
        ∀ (k : String) (r r' : Record),
        findKey prior k = some r → findKey (update_logs_ledger c) k = some r' →
        r'.backup_ts ≠ r.backup_ts →
        (r'.backup_ts = some c.ts_today ∧
          ∃ row ∈ create_run_log c (finalFS c), row.item_id = k ∧
            row.status = "success")) := by
  constructor
  · intro cs
    induction cs with
    | nil =>
      intro led t0 k r0 rn b0 bn _ _ h0 hb0 hn hbn
      simp only [chainRuns] at hn
      rw [h0] at hn
      have he : r0 = rn := Option.some.inj hn
      rw [← he, hb0] at hbn
      have he2 : b0 = bn := Option.some.inj hbn
      omega
    | cons c cs ih =>
      intro led t0 k r0 rn b0 bn hb hm h0 hb0 hn hbn
      have hm' : t0 ≤ c.ts_today ∧ tsMono c.ts_today cs := hm
      rcases hm' with ⟨ht, hm2⟩
      have hts : ({ c with priorLedger := some led } : Config).ts_today = c.ts_today :=
        rfl
      have hstep := run_backup_ts_mono { c with priorLedger := some led } led rfl t0
        hb (by rw [hts]; exact ht) k r0 h0
      rcases hstep with ⟨r1, hf1, _, hmono⟩
      rcases hmono b0 hb0 with ⟨b1, hb1, hle1, hle2⟩
      have hbnd : ledgerBound (update_logs_ledger { c with priorLedger := some led })
          c.ts_today := by
        rw [← hts]
        exact run_ledgerBound { c with priorLedger := some led } led rfl t0 hb
          (by rw [hts]; exact ht)
      simp only [chainRuns] at hn
      have hrest := ih (update_logs_ledger { c with priorLedger := some led })
        c.ts_today k r1 rn b1 bn hbnd hm2 hf1 hb1 hn hbn
      omega
  · intro c prior hprior k r r' hr hr' hne
    have hbase := findKey_success_log_prior c prior hprior k r hr
    set r0 := inPlaceRow ((items_df c).map metaToRecord) r with hr0def
    have hb0 := inPlaceRow_backup_fields ((items_df c).map metaToRecord) r
      (meta_records_backup_none _)
    have hr0id : r0.item_id = k := by
      rw [hr0def, inPlaceRow_item_id]
      exact findKey_some_id hr
    have hfin : findKey (update_logs_ledger c) k =
        some (inPlaceRow (success_rows c) r0) := by
      unfold update_logs_ledger
      rw [findKey_update_in_place, hbase]
      rfl
    rw [hfin] at hr'
    have hr'eq : r' = inPlaceRow (success_rows c) r0 := (Option.some.inj hr').symm
    cases hf : findKey (success_rows c) r0.item_id with
    | none =>
      exfalso
      apply hne
      rw [hr'eq]
      unfold inPlaceRow
      rw [hf]
      exact hb0.2.1
    | some s =>
      rcases mem_success_rows c s (findKey_mem hf) with ⟨hsts, _, row, hrow, hrst, hseq⟩
      constructor
      · rw [hr'eq]
        unfold inPlaceRow
        rw [hf]
        simp [rowUpdate, hsts, nanUpdate]
      · refine ⟨row, hrow, ?_, hrst⟩
        have h1 : s.item_id = k := by rw [findKey_some_id hf, hr0id]
        rw [hseq] at h1
        exact h1

/-- Witness for C8: a run over a prior entry backed up at 5 commits A at the run
timestamp 1000; monotonicity and the success characterization hold concretely. -/
theorem agol_C8_monotonic_witness :
    (5 : Nat) ≤ 1000 ∧
      (rnC8.backup_ts = some cfgW8.ts_today ∧
        ∃ row ∈ create_run_log cfgW8 (finalFS cfgW8), row.item_id = "A" ∧
          row.status = "success") :=
  ⟨agol_C8_monotonic.1 [cfgBase] [recW8] 50 "A" recW8 rnC8 5 1000
      (by
        intro r hrm b hb
        rcases List.mem_singleton.mp hrm with rfl
        have h5 : (5 : Nat) = b := Option.some.inj hb
        omega)
      ⟨by decide, trivial⟩ (by decide) (by decide) (by decide) (by decide),
   agol_C8_monotonic.2 cfgW8 [recW8] rfl "A" recW8 rnC8 (by decide) (by decide)
     (by decide)⟩

end AGOL
